import Mathlib

/-!
# Verification of the audio-to-subs core algorithms

Shallow embedding of the core algorithms of the `audio-to-subs` repository:

* `src/subtitle_generator.py` — text wrapping (`segment_text`), timestamp
  formatting (`format_timestamp_srt` / `_vtt` / `_sbv`), segment validation
  (`_validate_segment`), pagination and subtitle generation
  (`generate`, `generate_srt`, `generate_vtt`, `generate_sbv`,
  `_generate_output_filename`, `_is_valid_language_code`);
* `src/audio_splitter.py` — the segment-planning loop of `split_audio`;
* `src/pipeline.py` — timestamp stitching (`_transcribe_audio_segments`).

Modelling conventions:

* Python `str` values manipulated character-by-character are `List Char`;
  rendered output (timestamps, subtitle file lines) is `String`.
* Python `float` is embedded as `Rat` (the arithmetic in these functions is
  sums, differences, multiplications and divisions of values derived from
  the input, exactly representable over `ℚ`).
* Python exceptions become `Except`: the source raises
  `SubtitleFormatError` (called `FormatError` by the specification); its
  f-string messages carry the offending field names and values, which we
  model structurally as the payload of the `FormatError` constructors.
* Writing the output file happens in the source only after the whole
  document has been validated and rendered; a `.ok (content, path)` result
  models "file at `path` written with `content`", `.error e` models "an
  exception was raised and no file was written".
-/

namespace AudioToSubs

/-! ## Python string primitives on `List Char` -/

/-- Python `s.split(sep)` for a one-character separator: keeps empty pieces,
returns `n + 1` pieces for `n` separator occurrences (so `""` gives `[""]`). -/
def splitOnChar (sep : Char) : List Char → List (List Char)
  | [] => [[]]
  | c :: cs =>
    if c = sep then [] :: splitOnChar sep cs
    else
      match splitOnChar sep cs with
      | [] => [[c]]
      | w :: ws => (c :: w) :: ws

/-- Python truthiness of `paragraph.strip()`: a string is blank when every
character is whitespace (in particular `""` is blank). -/
def isBlank (s : List Char) : Bool := s.all (·.isWhitespace)

/-- Python `s.strip()`: drop whitespace from both ends. -/
def trimWS (s : List Char) : List Char :=
  ((s.dropWhile (·.isWhitespace)).reverse.dropWhile (·.isWhitespace)).reverse

/-- Python `s.lower()` (ASCII case folding, which is all the callers use). -/
def pyLower (s : List Char) : List Char := s.map Char.toLower

/-! ## `segment_text` (subtitle_generator.py lines 18–94) -/

/-- The greedy word-packing loop shared by both passes of `segment_text`
(`for word in words: ...`): returns the flushed lines and the final value of
`current_line`.  `cur ≠ []` is Python's truthiness test `if current_line`. -/
def packWords (maxChars : Int) : List (List Char) → List Char → List (List Char) × List Char
  | [], cur => ([], cur)
  | w :: ws, cur =>
    if cur ≠ [] ∧ ((cur.length + w.length + 1 : Nat) : Int) > maxChars then
      let r := packWords maxChars ws w
      (cur :: r.1, r.2)
    else
      packWords maxChars ws (if cur = [] then w else cur ++ ' ' :: w)

/-- The paragraph loop of `segment_text` (first pass).  `lastP` is
`paragraphs[-1]`; the source compares the current paragraph against it **by
value** (`paragraph != paragraphs[-1]`) to decide the boundary flush.  The
final `if cur ≠ []` case is the trailing `if current_line: lines.append(...)`. -/
def processParas (maxChars : Int) (lastP : List Char) : List (List Char) → List Char → List (List Char)
  | [], cur => if cur ≠ [] then [cur] else []
  | p :: ps, cur =>
    if isBlank p then
      (if cur ≠ [] then [cur] else []) ++ processParas maxChars lastP ps []
    else
      let r := packWords maxChars (splitOnChar ' ' p) cur
      if r.2 ≠ [] ∧ p ≠ lastP then
        r.1 ++ [r.2] ++ processParas maxChars lastP ps []
      else
        r.1 ++ processParas maxChars lastP ps r.2

/-- Second (defensive) pass of `segment_text`: a produced line still longer
than `max_chars` is re-packed with the same greedy loop. -/
def resegmentLine (maxChars : Int) (line : List Char) : List (List Char) :=
  if ((line.length : Nat) : Int) ≤ maxChars then [line]
  else
    let r := packWords maxChars (splitOnChar ' ' line) []
    r.1 ++ (if r.2 ≠ [] then [r.2] else [])

/-- Source function `segment_text(text, max_chars)` from subtitle_generator.py. -/
def segment_text (text : List Char) (maxChars : Int := 42) : List (List Char) :=
  if text = [] then [text]
  else
    let paragraphs := splitOnChar '\n' text
    let lines := processParas maxChars (paragraphs.getLastD []) paragraphs []
    lines.flatMap (resegmentLine maxChars)

/-- All space-separated words of all newline-separated paragraphs of the
input, in order (the word pool `segment_text` draws from). -/
def allWords (text : List Char) : List (List Char) :=
  (splitOnChar '\n' text).flatMap (splitOnChar ' ')

/-! ## Timestamp formatting (subtitle_generator.py lines 97–151) -/

/-- Floor of a rational, in the kernel-computable form `q.num / q.den`
(equal to `⌊q⌋` by `Rat.floor_def`, see `ratFloor_eq` below). -/
def ratFloor (q : Rat) : Int := q.num / q.den

/-- Ceiling of a rational (equal to `⌈q⌉`, see `ratCeil_eq` below). -/
def ratCeil (q : Rat) : Int := -ratFloor (-q)

/-- Rounding half-up (equal to Mathlib's `round`, see `specRound_eq` below). -/
def specRound (q : Rat) : Int := ratFloor (q + 1 / 2)

/-- Python `int()` on a float: truncation toward zero. -/
def pyInt (q : Rat) : Int := if q < 0 then ratCeil q else ratFloor q

/-- Python `f"{n:0wd}"` for a natural number: left-pad with zeros to width `w`. -/
def natPad (w : Nat) (n : Nat) : String :=
  let s := toString n
  String.mk (List.replicate (w - s.length) '0') ++ s

/-- Python `f"{n:0wd}"` for an integer (sign first, digits padded to the
remaining width). -/
def intPad (w : Nat) (n : Int) : String :=
  if n < 0 then "-" ++ natPad (w - 1) (-n).toNat else natPad w n.toNat

/-- Source function `format_timestamp_srt`: `HH:MM:SS,mmm`.  `total_seconds = int(seconds)`;
`milliseconds = int((seconds - total_seconds) * 1000)`; Python `//` and `%`
on a positive divisor are Euclidean division/remainder. -/
def format_timestamp_srt (seconds : Rat) : String :=
  let total := pyInt seconds
  let ms := pyInt ((seconds - (total : Rat)) * 1000)
  intPad 2 (total.ediv 3600) ++ ":" ++ intPad 2 ((total.emod 3600).ediv 60) ++ ":" ++
    intPad 2 (total.emod 60) ++ "," ++ intPad 3 ms

/-- Source function `format_timestamp_vtt`: as SRT but with a dot millisecond separator. -/
def format_timestamp_vtt (seconds : Rat) : String :=
  let total := pyInt seconds
  let ms := pyInt ((seconds - (total : Rat)) * 1000)
  intPad 2 (total.ediv 3600) ++ ":" ++ intPad 2 ((total.emod 3600).ediv 60) ++ ":" ++
    intPad 2 (total.emod 60) ++ "." ++ intPad 3 ms

/-- Source function `format_timestamp_sbv`: `H:MM:SS,mmm`, hour not zero-padded (`f"{hours}"`). -/
def format_timestamp_sbv (seconds : Rat) : String :=
  let total := pyInt seconds
  let ms := pyInt ((seconds - (total : Rat)) * 1000)
  toString (total.ediv 3600) ++ ":" ++ intPad 2 ((total.emod 3600).ediv 60) ++ ":" ++
    intPad 2 (total.emod 60) ++ "," ++ intPad 3 ms

/-- The timestamp formula exactly as the specification states it
(`totalSeconds = floor(seconds)`; `ms = round((seconds - totalSeconds) * 1000)`),
rendered with the SRT separators; used to compare the spec's claimed formula
against the code's. -/
def specTimestampRoundSrt (seconds : Rat) : String :=
  let total : Int := ratFloor seconds
  let ms : Int := specRound ((seconds - (total : Rat)) * 1000)
  intPad 2 (total.ediv 3600) ++ ":" ++ intPad 2 ((total.emod 3600).ediv 60) ++ ":" ++
    intPad 2 (total.emod 60) ++ "," ++ intPad 3 ms

/-- The shared formula with the millisecond part **truncated** instead of
rounded (`ms = floor((seconds - totalSeconds) * 1000)`), SRT separators. -/
def specTimestampFloorSrt (seconds : Rat) : String :=
  let total : Int := ratFloor seconds
  let ms : Int := ratFloor ((seconds - (total : Rat)) * 1000)
  intPad 2 (total.ediv 3600) ++ ":" ++ intPad 2 ((total.emod 3600).ediv 60) ++ ":" ++
    intPad 2 (total.emod 60) ++ "," ++ intPad 3 ms

/-- Truncating formula, VTT separators. -/
def specTimestampFloorVtt (seconds : Rat) : String :=
  let total : Int := ratFloor seconds
  let ms : Int := ratFloor ((seconds - (total : Rat)) * 1000)
  intPad 2 (total.ediv 3600) ++ ":" ++ intPad 2 ((total.emod 3600).ediv 60) ++ ":" ++
    intPad 2 (total.emod 60) ++ "." ++ intPad 3 ms

/-- Truncating formula, SBV rendering (hour not zero-padded). -/
def specTimestampFloorSbv (seconds : Rat) : String :=
  let total : Int := ratFloor seconds
  let ms : Int := ratFloor ((seconds - (total : Rat)) * 1000)
  toString (total.ediv 3600) ++ ":" ++ intPad 2 ((total.emod 3600).ediv 60) ++ ":" ++
    intPad 2 (total.emod 60) ++ "," ++ intPad 3 ms

/-- Decidable equality for `Except`, used to evaluate the embedded
generators on concrete inputs. -/
instance {ε α : Type} [DecidableEq ε] [DecidableEq α] : DecidableEq (Except ε α)
  | .error e, .error f =>
    if h : e = f then .isTrue (by rw [h]) else .isFalse (by simp [h])
  | .error _, .ok _ => .isFalse (by simp)
  | .ok _, .error _ => .isFalse (by simp)
  | .ok a, .ok b =>
    if h : a = b then .isTrue (by rw [h]) else .isFalse (by simp [h])

/-! ## Transcript cues and stitching (pipeline.py lines 214–253) -/

/-- A transcription segment as produced by the transcriber: `start`, `end`
and `text` keys are always present. -/
structure Cue where
  start : Rat
  «end» : Rat
  text : List Char
deriving DecidableEq

/-- The shift `segment["start"] += time_offset; segment["end"] += time_offset`. -/
def shiftCue (off : Rat) (c : Cue) : Cue := ⟨c.start + off, c.«end» + off, c.text⟩

/-- The chunk loop of `Pipeline._transcribe_audio_segments`: shift every cue
of the chunk by the running offset and append it; afterwards, if the chunk
was non-empty, the offset becomes `segments[-1]["end"]` — which at that point
has already been shifted, i.e. the last *emitted* cue's absolute end. -/
def stitchFrom : Rat → List (List Cue) → List Cue
  | _, [] => []
  | off, chunk :: rest =>
    let shifted := chunk.map (shiftCue off)
    shifted ++
      stitchFrom
        (match shifted.getLast? with
          | some c => c.«end»
          | none => off)
        rest

/-- Function `stitch`: merge chunk-local cue lists into one absolute-time list,
starting from `time_offset = 0.0`. -/
def stitch (chunks : List (List Cue)) : List Cue := stitchFrom 0 chunks

/-! ## Segment validation (subtitle_generator.py lines 449–483) -/

/-- A cue dictionary as the generator receives it: each of the `start`,
`end` and `text` keys may be missing (`none`).  The source also rejects
non-numeric `start`/`end` with the same `isinstance` branch; values of a
type other than number-or-missing are not representable in this model. -/
structure Segment where
  start? : Option Rat
  «end?» : Option Rat
  text? : Option (List Char)
deriving DecidableEq

/-- The argument data of each `SubtitleFormatError` f-string raised by the
generator; the message always interpolates the offending field name(s) and
value(s), modelled here as the constructor payload. -/
inductive FormatError where
  | missingField (fields : List String)
  | invalidTimecode (field : String) (value : Rat)
  | invalidRange (endVal startVal : Rat)
  | unsupportedFormat (fmt : String)
  | invalidLanguageCode (code : List Char)
deriving DecidableEq

/-- Source method `SubtitleGenerator._validate_segment`.  The missing-field check runs
first (over `{"start", "end", "text"} - segment.keys()`; the Python set
iteration order is unspecified, we list missing names in `start`, `end`,
`text` order); then negative `start`, negative `end`, and `end < start`. -/
def validate_segment (s : Segment) : Except FormatError Unit :=
  match s.start?, s.«end?», s.text? with
  | some st, some en, some _ =>
    if st < 0 then .error (.invalidTimecode "start" st)
    else if en < 0 then .error (.invalidTimecode "end" en)
    else if en < st then .error (.invalidRange en st)
    else .ok ()
  | _, _, _ =>
    .error (.missingField
      ((if s.start? = none then ["start"] else []) ++
        (if s.«end?» = none then ["end"] else []) ++
        (if s.text? = none then ["text"] else [])))

/-- The validation loop `for segment in segments: self._validate_segment(segment)`
that each generator runs before producing any output. -/
def validateAll : List Segment → Except FormatError Unit
  | [] => .ok ()
  | s :: rest =>
    match validate_segment s with
    | .error e => .error e
    | .ok _ => validateAll rest

/-- The claim's notion of an invalid cue, as a boolean: a missing `start`,
`end` or `text` field, a negative `start` or `end`, or `end < start`. -/
def segInvalidB (s : Segment) : Bool :=
  match s.start?, s.«end?», s.text? with
  | some st, some en, some _ => decide (st < 0) || decide (en < 0) || decide (en < st)
  | _, _, _ => true

/-! ## Pagination and per-format rendering (subtitle_generator.py 190–373) -/

/-- The `range(0, len(lines), 2)` slicing: pages of at most two consecutive lines. -/
def chunk2 : List α → List (List α)
  | [] => []
  | [a] => [[a]]
  | a :: b :: rest => [a, b] :: chunk2 rest

/-- The page loop of `generate_srt` for one segment: `i` is `page_index`,
`idx` the running 1-based `entry_index`.  The last page's end time is forced
to the cue's own end time. -/
def srtPagesLoop (st en : Rat) (numPages : Nat) (dpp : Rat) :
    List (List (List Char)) → Nat → Nat → List String
  | [], _, _ => []
  | page :: rest, i, idx =>
    (toString idx ::
      (format_timestamp_srt (st + (i : Rat) * dpp) ++ " --> " ++
        format_timestamp_srt (if i = numPages - 1 then en else st + ((i : Rat) + 1) * dpp)) ::
      (page.map String.mk ++ [""])) ++
      srtPagesLoop st en numPages dpp rest (i + 1) (idx + 1)

/-- The body of `generate_srt`'s segment loop for one segment: wrap the text,
paginate into 2-line pages, compute the per-page duration
(`total_duration / num_pages` when `num_pages > 0`, else `total_duration`). -/
def srtEntriesForSegment (s : Segment) (idx : Nat) : List String :=
  let st := s.start?.getD 0
  let en := s.«end?».getD 0
  let lines := segment_text (s.text?.getD []) 42
  let numPages := (lines.length + 1) / 2
  let dpp : Rat := if numPages > 0 then (en - st) / (numPages : Rat) else en - st
  srtPagesLoop st en numPages dpp (chunk2 lines) 0 idx

/-- Number of SRT/VTT/SBV blocks a segment contributes (one per page). -/
def numPagesOf (s : Segment) : Nat :=
  (chunk2 (segment_text (s.text?.getD []) 42)).length

/-- The outer loop of `generate_srt` over segments, threading `entry_index`. -/
def srtSegmentsLoop : List Segment → Nat → List String
  | [], _ => []
  | s :: rest, idx => srtEntriesForSegment s idx ++ srtSegmentsLoop rest (idx + numPagesOf s)

/-- Source method `generate_srt(segments, output_path)`: validate every segment, then
render; `.ok (lines, path)` models `Path(output_path).write_text(...)` of the
joined lines followed by `return str(output_path)`. -/
def generate_srt (segments : List Segment) (output_path : List Char) :
    Except FormatError (List String × List Char) :=
  match validateAll segments with
  | .error e => .error e
  | .ok _ => .ok (srtSegmentsLoop segments 1, output_path)

/-- The page loop of `generate_vtt` for one segment (no entry index,
dot-separated timestamps). -/
def vttPagesLoop (st en : Rat) (numPages : Nat) (dpp : Rat) :
    List (List (List Char)) → Nat → List String
  | [], _ => []
  | page :: rest, i =>
    ((format_timestamp_vtt (st + (i : Rat) * dpp) ++ " --> " ++
        format_timestamp_vtt (if i = numPages - 1 then en else st + ((i : Rat) + 1) * dpp)) ::
      (page.map String.mk ++ [""])) ++
      vttPagesLoop st en numPages dpp rest (i + 1)

/-- The body of `generate_vtt`'s segment loop for one segment. -/
def vttEntriesForSegment (s : Segment) : List String :=
  let st := s.start?.getD 0
  let en := s.«end?».getD 0
  let lines := segment_text (s.text?.getD []) 42
  let numPages := (lines.length + 1) / 2
  let dpp : Rat := if numPages > 0 then (en - st) / (numPages : Rat) else en - st
  vttPagesLoop st en numPages dpp (chunk2 lines) 0

/-- Source method `generate_vtt`: `WEBVTT` header and a blank line, then the blocks. -/
def generate_vtt (segments : List Segment) (output_path : List Char) :
    Except FormatError (List String × List Char) :=
  match validateAll segments with
  | .error e => .error e
  | .ok _ => .ok ("WEBVTT" :: "" :: (segments.flatMap vttEntriesForSegment), output_path)

/-- The page loop of `generate_sbv` for one segment (start and end timestamps
on two separate lines, SBV format). -/
def sbvPagesLoop (st en : Rat) (numPages : Nat) (dpp : Rat) :
    List (List (List Char)) → Nat → List String
  | [], _ => []
  | page :: rest, i =>
    (format_timestamp_sbv (st + (i : Rat) * dpp) ::
      format_timestamp_sbv (if i = numPages - 1 then en else st + ((i : Rat) + 1) * dpp) ::
      (page.map String.mk ++ [""])) ++
      sbvPagesLoop st en numPages dpp rest (i + 1)

/-- The body of `generate_sbv`'s segment loop for one segment. -/
def sbvEntriesForSegment (s : Segment) : List String :=
  let st := s.start?.getD 0
  let en := s.«end?».getD 0
  let lines := segment_text (s.text?.getD []) 42
  let numPages := (lines.length + 1) / 2
  let dpp : Rat := if numPages > 0 then (en - st) / (numPages : Rat) else en - st
  sbvPagesLoop st en numPages dpp (chunk2 lines) 0

/-- Source method `generate_sbv`: no header, no index, no arrow. -/
def generate_sbv (segments : List Segment) (output_path : List Char) :
    Except FormatError (List String × List Char) :=
  match validateAll segments with
  | .error e => .error e
  | .ok _ => .ok (segments.flatMap sbvEntriesForSegment, output_path)

/-! ## Output filename and language code (subtitle_generator.py 375–447) -/

/-- The value `Path(p).name`, modelled as the characters after the last `/` (pathlib's
normalisation of duplicate or trailing slashes is not modelled). -/
def pathName (p : List Char) : List Char := (p.reverse.takeWhile (· ≠ '/')).reverse

/-- The value `Path(p).parent`, modelled as the characters before the last `/`, or `.`
when the path has no `/` (matching `Path(name).parent == Path(".")`). -/
def pathParent (p : List Char) : List Char :=
  if '/' ∈ p then ((p.reverse.dropWhile (· ≠ '/')).tail).reverse else ['.']

/-- The extension-strip loop of `_generate_output_filename`: the first
format in `["srt", "vtt", "webvtt", "sbv"]` whose dotted extension is a
suffix of the filename is removed (`break` after the first match). -/
def stripFirstMatchingExt : List (List Char) → List Char → List Char
  | [], name => name
  | ext :: rest, name =>
    if ext.isSuffixOf name then name.take (name.length - ext.length)
    else stripFirstMatchingExt rest name

/-- The dotted subtitle extensions, in the source's loop order. -/
def subtitleExts : List (List Char) :=
  [['.', 's', 'r', 't'], ['.', 'v', 't', 't'],
   ['.', 'w', 'e', 'b', 'v', 't', 't'], ['.', 's', 'b', 'v']]

/-- Source method `SubtitleGenerator._is_valid_language_code`: non-empty, two or three
characters, alphabetic only. -/
def _is_valid_language_code (code : List Char) : Bool :=
  if code = [] then false
  else if code.length < 2 || code.length > 3 then false
  else code.all (·.isAlpha)

/-- Source method `SubtitleGenerator._generate_output_filename`.  Note the guard `if not
language_code` tests the *raw* argument for truthiness: an empty string is
treated like an absent code and the original path is returned unvalidated.
Otherwise the code is lowercased and stripped, validated, and the filename
is rebuilt as `<stem>.<code>.<format>` under the original parent. -/
def _generate_output_filename (output_path : List Char) (output_format : String)
    (language_code : Option (List Char)) : Except FormatError (List Char) :=
  match language_code with
  | none => .ok output_path
  | some raw =>
    if raw = [] then .ok output_path
    else
      let code := trimWS (pyLower raw)
      if _is_valid_language_code code then
        let filename := stripFirstMatchingExt subtitleExts (pathName output_path)
        let newName := filename ++ '.' :: (code ++ '.' :: output_format.toList)
        if pathParent output_path = ['.'] then .ok newName
        else .ok (pathParent output_path ++ '/' :: newName)
      else .error (.invalidLanguageCode code)

/-- The allow-list `SubtitleGenerator.SUPPORTED_FORMATS`. -/
def SUPPORTED_FORMATS : List String := ["srt", "vtt", "webvtt", "sbv"]

/-- Source method `SubtitleGenerator.generate`: reject unsupported formats, resolve the
final output filename (raising on an invalid language code before any cue is
touched), then dispatch on the format.  Inside the supported set the final
branch can only be `"sbv"`. -/
def generate (segments : List Segment) (output_path : List Char) (output_format : String)
    (language_code : Option (List Char) := none) :
    Except FormatError (List String × List Char) :=
  if output_format ∈ SUPPORTED_FORMATS then
    match _generate_output_filename output_path output_format language_code with
    | .error e => .error e
    | .ok finalPath =>
      if output_format = "srt" then generate_srt segments finalPath
      else if output_format = "vtt" || output_format = "webvtt" then generate_vtt segments finalPath
      else generate_sbv segments finalPath
  else .error (.unsupportedFormat output_format)

/-! ## Segment planning (audio_splitter.py lines 70–89) -/

/-- The `while start_time < duration` boundary loop of `split_audio`,
fuel-indexed: `end = min(start + max_length, duration)`; emit `[start, end]`;
break when `end >= duration`, else continue from `end - OVERLAP`.  The fuel
only bounds the number of unrollings; `planFuel` below always suffices when
`0 < O < L` (and for argument combinations where the source loop never
terminates, no fuel stabilises — see the planning theorems). -/
def planLoop (L O D : Rat) : Nat → Rat → List (Rat × Rat)
  | 0, _ => []
  | fuel + 1, s =>
    if s < D then
      let e := min (s + L) D
      if D ≤ e then [(s, e)]
      else (s, e) :: planLoop L O D fuel (e - O)
    else []

/-- Fuel sufficient for the planning loop under `0 < O < L`. -/
def planFuel (D L O : Rat) : Nat := (ratCeil (D / (L - O))).toNat + 1

/-- The segment plan computed by `split_audio`: for `duration <= max_length`
the source returns the input file unsplit (`return [audio_path]`), i.e. the
single whole-file window `[0, duration]`; otherwise it precomputes
`segments_bounds` with the boundary loop. -/
def planWindows (D : Rat) (L : Rat := 900) (O : Rat := 2) : List (Rat × Rat) :=
  if D ≤ L then [(0, D)] else planLoop L O D (planFuel D L O) 0

/-- The outcome of the planning stage of `split_audio`: the source contains
no precondition check and no `raise` in the planning code (its
`AudioSplitterError` arises only from the external ffprobe/ffmpeg
subprocesses), so planning always completes normally. -/
def planResult (D L O : Rat) : Except String (List (Rat × Rat)) :=
  .ok (planWindows D L O)

/-! ## Predicates used by the verification -/

/-- Every space-split piece of `l` that exceeds `maxChars` is one of the
words in `allW` (invariant of the greedy packing loops). -/
def FragOK (allW : List (List Char)) (maxChars : Int) (l : List Char) : Prop :=
  ∀ w ∈ splitOnChar ' ' l, maxChars < (w.length : Int) → w ∈ allW

/-- If `l` exceeds `maxChars` it is a single space-free word from `allW`
(invariant of the greedy packing loops). -/
def LoneOK (allW : List (List Char)) (maxChars : Int) (l : List Char) : Prop :=
  maxChars < (l.length : Int) → ' ' ∉ l ∧ l ∈ allW

end AudioToSubs

namespace AudioToSubs

/-! # Theorems -/

/-! ## Bridge lemmas for the computable floor/ceiling -/

theorem ratFloor_eq (q : Rat) : ratFloor q = ⌊q⌋ := (Rat.floor_def).symm

theorem ratCeil_eq (q : Rat) : ratCeil q = ⌈q⌉ := by
  rw [ratCeil, ratFloor_eq, Int.floor_neg, neg_neg]

theorem specRound_eq (q : Rat) : specRound q = round q := by
  rw [specRound, ratFloor_eq, round_eq]

theorem pyInt_of_nonneg {q : Rat} (h : 0 ≤ q) : pyInt q = ratFloor q := by
  rw [pyInt, if_neg (not_lt.mpr h)]

/-! ## `splitOnChar` lemmas -/

theorem splitOnChar_ne_nil (sep : Char) (s : List Char) : splitOnChar sep s ≠ [] := by
  induction s with
  | nil => simp [splitOnChar]
  | cons c cs ih =>
    rw [splitOnChar]
    split
    · simp
    · cases h : splitOnChar sep cs with
      | nil => exact absurd h ih
      | cons w ws => simp [h]

theorem splitOnChar_append_sep (sep : Char) (x y : List Char) :
    splitOnChar sep (x ++ sep :: y) = splitOnChar sep x ++ splitOnChar sep y := by
  induction x with
  | nil => simp [splitOnChar]
  | cons c cs ih =>
    by_cases hc : c = sep
    · simp [splitOnChar, hc, ih]
    · rw [List.cons_append, splitOnChar, if_neg hc, ih, splitOnChar, if_neg hc]
      cases h : splitOnChar sep cs with
      | nil => exact absurd h (splitOnChar_ne_nil sep cs)
      | cons w ws => simp [h]

theorem splitOnChar_of_not_mem {sep : Char} {s : List Char} (h : sep ∉ s) :
    splitOnChar sep s = [s] := by
  induction s with
  | nil => rfl
  | cons c cs ih =>
    have hc : c ≠ sep := fun hcs => h (hcs ▸ List.mem_cons_self c cs)
    have hcs : sep ∉ cs := fun hm => h (List.mem_cons_of_mem c hm)
    rw [splitOnChar, if_neg hc, ih hcs]

theorem not_mem_of_mem_splitOnChar {sep : Char} {s w : List Char}
    (hw : w ∈ splitOnChar sep s) : sep ∉ w := by
  induction s generalizing w with
  | nil =>
    simp only [splitOnChar, List.mem_singleton] at hw
    simp [hw]
  | cons c cs ih =>
    rw [splitOnChar] at hw
    by_cases hc : c = sep
    · rw [if_pos hc] at hw
      rcases List.mem_cons.mp hw with h | h
      · simp [h]
      · exact ih h
    · rw [if_neg hc] at hw
      cases h : splitOnChar sep cs with
      | nil => exact absurd h (splitOnChar_ne_nil sep cs)
      | cons u us =>
        rw [h] at hw
        rcases List.mem_cons.mp hw with h1 | h1
        · subst h1
          intro hm
          rcases List.mem_cons.mp hm with h2 | h2
          · exact hc h2.symm
          · exact ih (h ▸ List.mem_cons_self u us) h2
        · exact ih (h ▸ List.mem_cons_of_mem u h1)

/-! ## C2 — stitching carries the offset from the last emitted cue -/

/-- C2: `stitch` starts from offset `0` and processes chunks in order; every
cue of a chunk is emitted shifted by the current offset; an empty chunk
leaves the offset unchanged; after a non-empty chunk the offset becomes the
chunk's last *emitted* (absolute) cue end; and on the spec's fixture
`stitch [[{0,2,"a"}], [{0,3,"b"}]] = [{0,2,"a"}, {2,5,"b"}]`. -/
theorem c2_stitch_offset_from_last_emitted_cue :
    (∀ chunks, stitch chunks = stitchFrom 0 chunks) ∧
    (∀ off : Rat, stitchFrom off [] = []) ∧
    (∀ (off : Rat) (rest : List (List Cue)),
      stitchFrom off ([] :: rest) = stitchFrom off rest) ∧
    (∀ (off : Rat) (c : Cue) (cs : List Cue) (rest : List (List Cue)),
      ∃ w, ((c :: cs).map (shiftCue off)).getLast? = some w ∧
        stitchFrom off ((c :: cs) :: rest) =
          (c :: cs).map (shiftCue off) ++ stitchFrom w.«end» rest) ∧
    stitch [[⟨0, 2, ['a']⟩], [⟨0, 3, ['b']⟩]] = [⟨0, 2, ['a']⟩, ⟨2, 5, ['b']⟩] := by
  refine ⟨fun _ => rfl, fun _ => rfl, fun off rest => by simp [stitchFrom], ?_, ?_⟩
  · intro off c cs rest
    have hne : (c :: cs).map (shiftCue off) ≠ [] := by simp
    obtain ⟨w, hw⟩ := Option.isSome_iff_exists.mp (List.getLast?_isSome.mpr hne)
    exact ⟨w, hw, by rw [stitchFrom, hw]⟩
  · simp [stitch, stitchFrom, shiftCue]
    norm_num

/-! ## C8 — the planner has no precondition checks -/

/-- C8 counterexample: `duration = -5` violates the claimed precondition
`duration ≥ 0`, yet planning completes normally (no `PlanningError` exists
anywhere in `split_audio`'s planning code) and returns the single
whole-file window. -/
theorem c8_counterexample_no_error_on_negative_duration :
    planResult (-5) 900 2 = .ok [(0, -5)] := by decide

/-- One iteration of the planning loop at `duration = 10`,
`max_length = overlap = 2`: the next start is `2 - 2 = 0` again. -/
theorem planLoop_nonadvancing_step (n : Nat) :
    planLoop 2 2 10 (n + 1) 0 = (0, 2) :: planLoop 2 2 10 n 0 := by
  rw [planLoop]
  have h1 : (0 : Rat) < 10 := by norm_num
  have h2 : min ((0 : Rat) + 2) 10 = 2 := by norm_num
  rw [if_pos h1]
  simp only [h2]
  rw [if_neg (by norm_num)]
  norm_num

/-- C8 amended: `split_audio` performs no precondition validation at all.
With `duration = -5 < 0` it silently returns the single window `[0, -5]`,
and with `overlap = maxLength = 2 < duration = 10` the source's `while`
loop never terminates (every unrolling of the loop emits one more copy of
the window `(0, 2)` without advancing). -/
theorem c8_amended_no_precondition_checks :
    planResult (-5) 900 2 = .ok [(0, -5)] ∧
    (∀ n : Nat, (planLoop 2 2 10 n 0).length = n) := by
  refine ⟨by decide, fun n => ?_⟩
  induction n with
  | zero => rfl
  | succ n ih => rw [planLoop_nonadvancing_step, List.length_cons, ih]

/-! ## C5 — cues whose wrapped text is empty produce no block -/

/-- C5 counterexample: the cue `{start 0, end 2, text " "}` is valid, its
wrapped line list is empty (`num_pages = 0`), and — contrary to the claim —
the generated SRT document contains **no** block for it (the content is
empty, not one page with an empty line). -/
theorem c5_counterexample_whitespace_cue_dropped :
    generate [⟨some 0, some 2, some [' ']⟩] ['o', 'u', 't'] "srt" none =
      .ok ([], ['o', 'u', 't']) := by decide

/-- C5 amended: when wrapping a validated cue's text yields zero lines
(`num_pages == 0`, e.g. whitespace-only text) the pagination loop emits no
page at all and the cue is silently dropped; a cue contributes at least one
block exactly when its wrapped line list is non-empty. -/
theorem c5_amended_block_iff_wrapped_lines_nonempty (s : Segment) (idx : Nat) :
    srtEntriesForSegment s idx = [] ↔ segment_text (s.text?.getD []) 42 = [] := by
  rw [srtEntriesForSegment]
  cases h : segment_text (s.text?.getD []) 42 with
  | nil => simp [h, chunk2, srtPagesLoop]
  | cons x xs =>
    cases xs with
    | nil => simp [h, chunk2, srtPagesLoop]
    | cons y ys => simp [h, chunk2, srtPagesLoop]

/-! ## C7 — timestamp formatting -/

theorem format_timestamp_srt_eval (s : Rat) (t m : Int) (ht : pyInt s = t)
    (hm : pyInt ((s - (t : Rat)) * 1000) = m) :
    format_timestamp_srt s =
      intPad 2 (t.ediv 3600) ++ ":" ++ intPad 2 ((t.emod 3600).ediv 60) ++ ":" ++
        intPad 2 (t.emod 60) ++ "," ++ intPad 3 m := by
  simp only [format_timestamp_srt, ht, hm]

theorem format_timestamp_vtt_eval (s : Rat) (t m : Int) (ht : pyInt s = t)
    (hm : pyInt ((s - (t : Rat)) * 1000) = m) :
    format_timestamp_vtt s =
      intPad 2 (t.ediv 3600) ++ ":" ++ intPad 2 ((t.emod 3600).ediv 60) ++ ":" ++
        intPad 2 (t.emod 60) ++ "." ++ intPad 3 m := by
  simp only [format_timestamp_vtt, ht, hm]

theorem format_timestamp_sbv_eval (s : Rat) (t m : Int) (ht : pyInt s = t)
    (hm : pyInt ((s - (t : Rat)) * 1000) = m) :
    format_timestamp_sbv s =
      toString (t.ediv 3600) ++ ":" ++ intPad 2 ((t.emod 3600).ediv 60) ++ ":" ++
        intPad 2 (t.emod 60) ++ "," ++ intPad 3 m := by
  simp only [format_timestamp_sbv, ht, hm]

/-- Evaluate `pyInt` on a non-negative rational by bracketing. -/
theorem pyInt_eval {q : Rat} {z : Int} (h0 : 0 ≤ q) (h1 : (z : Rat) ≤ q)
    (h2 : q < z + 1) : pyInt q = z := by
  rw [pyInt_of_nonneg h0, ratFloor_eq]
  exact Int.floor_eq_iff.mpr ⟨h1, by exact_mod_cast h2⟩

/-- Evaluate `ratFloor` by bracketing. -/
theorem ratFloor_eval {q : Rat} {z : Int} (h1 : (z : Rat) ≤ q) (h2 : q < z + 1) :
    ratFloor q = z := by
  rw [ratFloor_eq]
  exact Int.floor_eq_iff.mpr ⟨h1, by exact_mod_cast h2⟩

/-- C7 counterexample: at `seconds = 0.9999` the code truncates the
millisecond part (`int(999.9) = 999`) while the claim's formula rounds it
(`round(999.9) = 1000`), so the two disagree. -/
theorem c7_counterexample_ms_truncated_not_rounded :
    format_timestamp_srt (9999 / 10000) = "00:00:00,999" ∧
    specTimestampRoundSrt (9999 / 10000) = "00:00:00,1000" := by
  constructor
  · rw [format_timestamp_srt_eval (9999 / 10000) 0 999
      (pyInt_eval (by norm_num) (by norm_num) (by norm_num))
      (pyInt_eval (by norm_num) (by norm_num) (by norm_num))]
    decide
  · have ht : ratFloor ((9999 : Rat) / 10000) = 0 :=
      ratFloor_eval (by norm_num) (by norm_num)
    simp only [specTimestampRoundSrt, ht]
    have hm2 : specRound ((((9999 : Rat) / 10000) - ((0 : Int) : Rat)) * 1000) = 1000 := by
      rw [specRound]
      exact ratFloor_eval (by norm_num) (by norm_num)
    rw [hm2]
    decide

/-- C7 amended: the three formatters share the formula with the millisecond
part **truncated** (`ms = int((seconds - totalSeconds) * 1000)`, which for
the non-negative times produced by validated cues is a floor, not a round);
hour/minute/second decomposition and padding are as claimed, and the three
concrete examples from the specification hold. -/
theorem c7_amended_shared_truncating_formula :
    (∀ s : Rat, 0 ≤ s →
      format_timestamp_srt s = specTimestampFloorSrt s ∧
      format_timestamp_vtt s = specTimestampFloorVtt s ∧
      format_timestamp_sbv s = specTimestampFloorSbv s) ∧
    format_timestamp_srt 0 = "00:00:00,000" ∧
    format_timestamp_vtt (3 / 2) = "00:00:01.500" ∧
    format_timestamp_sbv (7323 / 2) = "1:01:01,500" := by
  have key : ∀ s : Rat, 0 ≤ s →
      pyInt s = ratFloor s ∧
      pyInt ((s - ((ratFloor s : Int) : Rat)) * 1000) =
        ratFloor ((s - ((ratFloor s : Int) : Rat)) * 1000) := by
    intro s hs
    refine ⟨pyInt_of_nonneg hs, pyInt_of_nonneg ?_⟩
    have hfl : ((ratFloor s : Int) : Rat) ≤ s := by
      rw [ratFloor_eq]; exact Int.floor_le s
    have : (0 : Rat) ≤ s - ((ratFloor s : Int) : Rat) := by linarith
    positivity
  refine ⟨fun s hs => ?_, ?_, ?_, ?_⟩
  · obtain ⟨h1, h2⟩ := key s hs
    refine ⟨?_, ?_, ?_⟩
    · simp only [format_timestamp_srt, specTimestampFloorSrt, h1, h2]
    · simp only [format_timestamp_vtt, specTimestampFloorVtt, h1, h2]
    · simp only [format_timestamp_sbv, specTimestampFloorSbv, h1, h2]
  · rw [format_timestamp_srt_eval 0 0 0
      (pyInt_eval (by norm_num) (by norm_num) (by norm_num))
      (pyInt_eval (by norm_num) (by norm_num) (by norm_num))]
    decide
  · rw [format_timestamp_vtt_eval (3 / 2) 1 500
      (pyInt_eval (by norm_num) (by norm_num) (by norm_num))
      (pyInt_eval (by norm_num) (by norm_num) (by norm_num))]
    decide
  · rw [format_timestamp_sbv_eval (7323 / 2) 3661 500
      (pyInt_eval (by norm_num) (by norm_num) (by norm_num))
      (pyInt_eval (by norm_num) (by norm_num) (by norm_num))]
    decide

/-- Witness for the hypothesis of the universally quantified part of the
amended C7 theorem, instantiated at `seconds = 3/2 ≥ 0`. -/
theorem c7_amended_witness :
    format_timestamp_srt (3 / 2) = specTimestampFloorSrt (3 / 2) ∧
    format_timestamp_vtt (3 / 2) = specTimestampFloorVtt (3 / 2) ∧
    format_timestamp_sbv (3 / 2) = specTimestampFloorSbv (3 / 2) :=
  c7_amended_shared_truncating_formula.1 (3 / 2) (by norm_num)

/-! ## C6 — hard line breaks and the value-equality flush quirk -/

/-- C6 counterexample: with `a = b = "c"`, the middle paragraph compares
equal (by value) to the last paragraph, so the boundary flush is skipped and
the two paragraphs' words are packed onto one line: `wrap("c\nc") = ["c c"]`,
not `wrap("c") ++ wrap("c") = ["c", "c"]`. -/
theorem c6_counterexample_equal_paragraphs_merged :
    segment_text ['c', '\n', 'c'] 42 = [['c', ' ', 'c']] ∧
    segment_text ['c'] 42 ++ segment_text ['c'] 42 = [['c'], ['c']] := by decide

/-- Processing a two-paragraph list whose paragraphs differ decomposes into
processing each paragraph on its own (each against its own `paragraphs[-1]`). -/
theorem processParas_pair (maxChars : Int) (a b : List Char) (hab : a ≠ b) :
    processParas maxChars b [a, b] [] =
      processParas maxChars a [a] [] ++ processParas maxChars b [b] [] := by
  by_cases hba : isBlank a <;> by_cases hbb : isBlank b <;>
    by_cases hra : (packWords maxChars (splitOnChar ' ' a) []).2 = [] <;>
      simp [processParas, hba, hbb, hra, hab]

/-- C6 amended: `segment_text` flushes the current line at a paragraph
boundary only when the paragraph differs **by string value** from the final
paragraph (`paragraph != paragraphs[-1]`), so the claimed concatenation law
holds for distinct paragraphs: for `a ≠ b`, both newline-free,
`wrap(a + "\n" + b) = wrap(a) ++ wrap(b)`.  (For `a = b` it can fail — see
the counterexample.) -/
theorem c6_amended_wrap_splits_at_distinct_paragraphs
    (a b : List Char) (maxChars : Int) (ha : a ≠ []) (hb : b ≠ [])
    (hna : '\n' ∉ a) (hnb : '\n' ∉ b) (hab : a ≠ b) :
    segment_text (a ++ '\n' :: b) maxChars =
      segment_text a maxChars ++ segment_text b maxChars := by
  have hsplit : splitOnChar '\n' (a ++ '\n' :: b) = [a, b] := by
    rw [splitOnChar_append_sep, splitOnChar_of_not_mem hna, splitOnChar_of_not_mem hnb]
    rfl
  have hne : a ++ '\n' :: b ≠ [] := by simp
  rw [segment_text, if_neg hne, hsplit]
  rw [segment_text, if_neg ha, splitOnChar_of_not_mem hna]
  rw [segment_text, if_neg hb, splitOnChar_of_not_mem hnb]
  simp only [List.getLastD_cons, List.getLastD_nil]
  rw [processParas_pair maxChars a b hab, List.flatMap_append]

/-- Witness for the amended C6 theorem at `a = "aa"`, `b = "b"`,
`maxChars = 42`. -/
theorem c6_amended_witness :
    segment_text (['a', 'a'] ++ '\n' :: ['b']) 42 =
      segment_text ['a', 'a'] 42 ++ segment_text ['b'] 42 :=
  c6_amended_wrap_splits_at_distinct_paragraphs ['a', 'a'] ['b'] 42
    (by decide) (by decide) (by decide) (by decide) (by decide)

/-! ## Planning-loop lemmas (C3, C9) -/

/-- Every window the loop emits has `end = min(start + max_length, duration)`. -/
theorem planLoop_mem_end (L O D : Rat) :
    ∀ (fuel : Nat) (s : Rat), ∀ w ∈ planLoop L O D fuel s, w.2 = min (w.1 + L) D := by
  intro fuel
  induction fuel with
  | zero => intro s w hw; simp [planLoop] at hw
  | succ n ih =>
    intro s w hw
    rw [planLoop] at hw
    by_cases h1 : s < D
    · rw [if_pos h1] at hw
      by_cases h2 : D ≤ min (s + L) D
      · rw [if_pos h2] at hw
        simp only [List.mem_singleton] at hw
        simp [hw]
      · rw [if_neg h2] at hw
        rcases List.mem_cons.mp hw with h | h
        · simp [h]
        · exact ih _ w h
    · rw [if_neg h1] at hw
      simp at hw

/-- The head of a non-empty loop result starts at the loop's `start`. -/
theorem planLoop_head (L O D : Rat) (fuel : Nat) (s : Rat) (d : Rat × Rat)
    (h1 : s < D) (hf : fuel ≠ 0) : ((planLoop L O D fuel s).headD d).1 = s := by
  cases fuel with
  | zero => exact absurd rfl hf
  | succ n =>
    rw [planLoop, if_pos h1]
    by_cases h2 : D ≤ min (s + L) D
    · rw [if_pos h2]; rfl
    · rw [if_neg h2]; rfl

/-- The loop result is non-empty whenever it starts before the duration. -/
theorem planLoop_ne_nil (L O D : Rat) (n : Nat) (s : Rat) (h1 : s < D) :
    planLoop L O D (n + 1) s ≠ [] := by
  rw [planLoop, if_pos h1]
  by_cases h2 : D ≤ min (s + L) D
  · rw [if_pos h2]; simp
  · rw [if_neg h2]; simp

/-- Consecutive windows satisfy both `next.start = prev.end - O` and
`next.start = prev.start + (L - O)` (the loop advances by exactly `L - O`). -/
theorem planLoop_chain (L O D : Rat) :
    ∀ (fuel : Nat) (s : Rat),
      List.Chain' (fun a b : Rat × Rat => b.1 = a.2 - O ∧ b.1 = a.1 + (L - O))
        (planLoop L O D fuel s) := by
  intro fuel
  induction fuel with
  | zero => intro s; simp [planLoop]
  | succ n ih =>
    intro s
    rw [planLoop]
    by_cases h1 : s < D
    · rw [if_pos h1]
      by_cases h2 : D ≤ min (s + L) D
      · rw [if_pos h2]; simp
      · rw [if_neg h2]
        have hmlt : min (s + L) D < D := lt_of_not_le h2
        have hsl : s + L < D := by
          by_contra hc
          push_neg at hc
          rw [min_eq_right hc] at hmlt
          exact lt_irrefl _ hmlt
        have he : min (s + L) D = s + L := min_eq_left (le_of_lt hsl)
        refine List.chain'_cons'.mpr ⟨?_, ih _⟩
        intro y hy
        cases hn : planLoop L O D n (min (s + L) D - O) with
        | nil => rw [hn] at hy; simp at hy
        | cons z zs =>
          rw [hn] at hy
          simp only [List.head?_cons, Option.mem_some_iff] at hy
          have hs' : min (s + L) D - O < D := by
            by_contra hc
            push_neg at hc
            have hnil : planLoop L O D n (min (s + L) D - O) = [] := by
              cases n with
              | zero => rfl
              | succ m => rw [planLoop, if_neg (not_lt.mpr hc)]
            rw [hnil] at hn
            exact List.noConfusion hn
          have hn0 : n ≠ 0 := by
            intro h0
            rw [h0] at hn
            exact List.noConfusion hn
          have hz := planLoop_head L O D n (min (s + L) D - O) (0, 0) hs' hn0
          rw [hn] at hz
          simp only [List.headD_cons] at hz
          subst hy
          refine ⟨by rw [hz, he], by rw [hz, he]; ring⟩
    · rw [if_neg h1]; simp

/-- With enough fuel the loop's last window ends exactly at the duration
(arbitrary default, so the statement composes under `getLastD_cons`). -/
theorem planLoop_last (L O D : Rat) (hO : 0 < O) :
    ∀ (n : Nat) (s : Rat), s < D → D ≤ s + L + n * (L - O) →
      ∀ d : Rat × Rat, ((planLoop L O D (n + 1) s).getLastD d).2 = D := by
  intro n
  induction n with
  | zero =>
    intro s h1 h2 d
    have hD : D ≤ s + L := by push_cast at h2; linarith
    have he : min (s + L) D = D := min_eq_right hD
    rw [planLoop, if_pos h1, he, if_pos le_rfl]
    simp
  | succ m ih =>
    intro s h1 h2 d
    rw [planLoop, if_pos h1]
    by_cases hD : D ≤ min (s + L) D
    · rw [if_pos hD]
      have : min (s + L) D = D := le_antisymm (min_le_right _ _) hD
      simp [this]
    · rw [if_neg hD]
      have hmlt : min (s + L) D < D := lt_of_not_le hD
      have hsl : s + L < D := by
        by_contra hc
        push_neg at hc
        rw [min_eq_right hc] at hmlt
        exact lt_irrefl _ hmlt
      have he : min (s + L) D = s + L := min_eq_left (le_of_lt hsl)
      rw [List.getLastD_cons, he]
      refine ih (s + L - O) (by linarith) ?_ _
      have : (↑(m + 1) : Rat) * (L - O) = (m : Rat) * (L - O) + (L - O) := by
        push_cast
        ring
      rw [this] at h2
      linarith

/-- With enough fuel the loop result is stable under adding more fuel. -/
theorem planLoop_stable (L O D : Rat) :
    ∀ (n : Nat) (s : Rat), D ≤ s + L + n * (L - O) →
      planLoop L O D (n + 2) s = planLoop L O D (n + 1) s := by
  intro n
  induction n with
  | zero =>
    intro s h2
    by_cases h1 : s < D
    · have he : min (s + L) D = D := min_eq_right (by push_cast at h2; linarith)
      rw [planLoop, if_pos h1, he, if_pos le_rfl, planLoop, if_pos h1, he, if_pos le_rfl]
    · rw [planLoop, if_neg h1, planLoop, if_neg h1]
  | succ m ih =>
    intro s h2
    by_cases h1 : s < D
    · rw [planLoop, if_pos h1]
      conv_rhs => rw [planLoop, if_pos h1]
      by_cases hD : D ≤ min (s + L) D
      · rw [if_pos hD, if_pos hD]
      · rw [if_neg hD, if_neg hD]
        have hmlt : min (s + L) D < D := lt_of_not_le hD
        have hsl : s + L < D := by
          by_contra hc
          push_neg at hc
          rw [min_eq_right hc] at hmlt
          exact lt_irrefl _ hmlt
        have he : min (s + L) D = s + L := min_eq_left (le_of_lt hsl)
        rw [ih (min (s + L) D - O)]
        rw [he]
        have : (↑(m + 1) : Rat) * (L - O) = (m : Rat) * (L - O) + (L - O) := by
          push_cast
          ring
        rw [this] at h2
        linarith
    · rw [planLoop, if_neg h1, planLoop, if_neg h1]

/-- The fuel bound `planFuel` satisfies the sufficiency inequality used by
`planLoop_last` and `planLoop_stable` at `s = 0`. -/
theorem planFuel_bound (D L O : Rat) (hO : 0 < O) (hOL : O < L) :
    D ≤ 0 + L + ((planFuel D L O - 1 : Nat) : Rat) * (L - O) := by
  have hd : (0 : Rat) < L - O := by linarith
  have h1 : planFuel D L O - 1 = (ratCeil (D / (L - O))).toNat := by
    rw [planFuel, Nat.add_sub_cancel]
  rw [h1]
  have h2 : (ratCeil (D / (L - O)) : Rat) ≤ ((ratCeil (D / (L - O))).toNat : Rat) := by
    have := Int.self_le_toNat (ratCeil (D / (L - O)))
    exact_mod_cast this
  have h3 : D / (L - O) ≤ (ratCeil (D / (L - O)) : Rat) := by
    rw [ratCeil_eq]
    exact Int.le_ceil _
  have h4 : D / (L - O) * (L - O) ≤ ((ratCeil (D / (L - O))).toNat : Rat) * (L - O) :=
    mul_le_mul_of_nonneg_right (le_trans h3 h2) (le_of_lt hd)
  rw [div_mul_cancel₀ D (ne_of_gt hd)] at h4
  linarith

/-! ## C3 — shape of the planned windows -/

/-- C3: under `0 < overlap < max_length` the plan is `[(0, duration)]` when
`duration ≤ max_length`; in every case the plan is non-empty, starts at `0`,
every window satisfies `end = min(start + max_length, duration)`, consecutive
windows satisfy `next.start = prev.end - overlap`, and the final window ends
exactly at `duration`. -/
theorem c3_plan_window_shape (D L O : Rat) (hO : 0 < O) (hOL : O < L) :
    (D ≤ L → planWindows D L O = [(0, D)]) ∧
    planWindows D L O ≠ [] ∧
    ((planWindows D L O).headD (0, 0)).1 = 0 ∧
    (∀ w ∈ planWindows D L O, w.2 = min (w.1 + L) D) ∧
    List.Chain' (fun a b : Rat × Rat => b.1 = a.2 - O) (planWindows D L O) ∧
    ((planWindows D L O).getLastD (0, 0)).2 = D := by
  by_cases hDL : D ≤ L
  · rw [planWindows, if_pos hDL]
    refine ⟨fun _ => rfl, by simp, rfl, ?_, by simp, rfl⟩
    intro w hw
    simp only [List.mem_singleton] at hw
    subst hw
    show D = min (0 + L) D
    rw [min_eq_right (by linarith)]
  · rw [planWindows, if_neg hDL]
    push_neg at hDL
    have h0D : (0 : Rat) < D := lt_trans (lt_trans hO hOL) hDL
    have hfuel : planFuel D L O = (planFuel D L O - 1) + 1 := by
      rw [planFuel, Nat.add_sub_cancel]
    have hbound := planFuel_bound D L O hO hOL
    refine ⟨fun h => absurd h (not_le.mpr hDL), ?_, ?_, ?_, ?_, ?_⟩
    · rw [hfuel]
      exact planLoop_ne_nil L O D _ 0 h0D
    · exact planLoop_head L O D _ 0 (0, 0) h0D (by rw [planFuel]; simp)
    · exact planLoop_mem_end L O D _ 0
    · exact (planLoop_chain L O D _ 0).imp (fun _ _ h => h.1)
    · rw [hfuel]
      exact planLoop_last L O D hO _ 0 h0D (hfuel ▸ hbound) (0, 0)

/-- Witness for C3 at `D = 2000`, `L = 900`, `O = 2`. -/
theorem c3_plan_window_shape_witness :
    ((2000 : Rat) ≤ 900 → planWindows 2000 900 2 = [(0, 2000)]) ∧
    planWindows 2000 900 2 ≠ [] ∧
    ((planWindows 2000 900 2).headD (0, 0)).1 = 0 ∧
    (∀ w ∈ planWindows 2000 900 2, w.2 = min (w.1 + 900) 2000) ∧
    List.Chain' (fun a b : Rat × Rat => b.1 = a.2 - 2) (planWindows 2000 900 2) ∧
    ((planWindows 2000 900 2).getLastD (0, 0)).2 = 2000 :=
  c3_plan_window_shape 2000 900 2 (by norm_num) (by norm_num)

/-! ## C9 — the planning loop terminates -/

/-- C9: for `duration ≥ 0` and `0 < overlap < max_length` the planning loop
terminates: beyond `planFuel` extra fuel never changes the result (the loop
has reached its `break`), and the emitted windows advance by exactly
`max_length - overlap > 0` per iteration, so their starts strictly increase. -/
theorem c9_plan_loop_terminates (D L O : Rat) (_hD : 0 ≤ D) (hO : 0 < O) (hOL : O < L) :
    (∀ m : Nat, planFuel D L O ≤ m →
      planLoop L O D m 0 = planLoop L O D (planFuel D L O) 0) ∧
    List.Chain' (fun a b : Rat × Rat => b.1 = a.1 + (L - O))
      (planLoop L O D (planFuel D L O) 0) ∧
    List.Chain' (fun a b : Rat × Rat => a.1 < b.1)
      (planLoop L O D (planFuel D L O) 0) := by
  have hbound := planFuel_bound D L O hO hOL
  have hstep : ∀ k : Nat, planFuel D L O - 1 ≤ k →
      D ≤ 0 + L + (k : Rat) * (L - O) := by
    intro k hk
    have hcast : ((planFuel D L O - 1 : Nat) : Rat) ≤ (k : Rat) := by exact_mod_cast hk
    have := mul_le_mul_of_nonneg_right hcast (by linarith : (0 : Rat) ≤ L - O)
    linarith
  refine ⟨?_, ?_, ?_⟩
  · intro m hm
    induction m with
    | zero =>
      have : planFuel D L O = 0 := Nat.le_zero.mp hm
      rw [this]
    | succ k ih =>
      rcases Nat.lt_or_ge (planFuel D L O) (k + 1) with hlt | hge
      · have hk : planFuel D L O ≤ k := Nat.lt_succ_iff.mp hlt
        rw [← ih hk]
        have hk1 : 1 ≤ k := le_trans (by rw [planFuel]; exact Nat.le_add_left 1 _) hk
        obtain ⟨j, hj⟩ : ∃ j, k = j + 1 := ⟨k - 1, by omega⟩
        subst hj
        exact planLoop_stable L O D j 0 (hstep j (by omega))
      · have : planFuel D L O = k + 1 := le_antisymm hm hge
        rw [this]
  · exact (planLoop_chain L O D _ 0).imp (fun _ _ h => h.2)
  · refine (planLoop_chain L O D _ 0).imp ?_
    rintro a b ⟨-, h2⟩
    rw [h2]
    linarith

/-- Witness for C9 at `D = 2000`, `L = 900`, `O = 2`. -/
theorem c9_plan_loop_terminates_witness :
    (∀ m : Nat, planFuel 2000 900 2 ≤ m →
      planLoop 900 2 2000 m 0 = planLoop 900 2 2000 (planFuel 2000 900 2) 0) ∧
    List.Chain' (fun a b : Rat × Rat => b.1 = a.1 + (900 - 2))
      (planLoop 900 2 2000 (planFuel 2000 900 2) 0) ∧
    List.Chain' (fun a b : Rat × Rat => a.1 < b.1)
      (planLoop 900 2 2000 (planFuel 2000 900 2) 0) :=
  c9_plan_loop_terminates 2000 900 2 (by norm_num) (by norm_num) (by norm_num)

/-! ## C1 — whole-document validation precedes any output -/

/-- A segment validates exactly when it is not invalid in the claim's sense
(missing field, negative time, or `end < start`). -/
theorem validate_segment_ok_iff (s : Segment) :
    validate_segment s = .ok () ↔ segInvalidB s = false := by
  rcases s with ⟨st?, en?, tx?⟩
  cases st? <;> cases en? <;> cases tx? <;>
    simp only [validate_segment, segInvalidB] <;>
      split_ifs <;> simp_all

/-- The validation loop fails with the error of some member whenever some
member is invalid. -/
theorem validateAll_error_of_invalid :
    ∀ (segs : List Segment), (∃ s ∈ segs, segInvalidB s = true) →
      ∃ e, validateAll segs = .error e ∧ ∃ s ∈ segs, validate_segment s = .error e := by
  intro segs
  induction segs with
  | nil => rintro ⟨s, hs, -⟩; simp at hs
  | cons s rest ih =>
    intro hinv
    cases hv : validate_segment s with
    | error e =>
      exact ⟨e, by rw [validateAll, hv], s, List.mem_cons_self s rest, hv⟩
    | ok u =>
      cases u
      have hsv : segInvalidB s = false := (validate_segment_ok_iff s).mp hv
      obtain ⟨t, ht, htv⟩ := hinv
      rcases List.mem_cons.mp ht with rfl | ht'
      · rw [hsv] at htv; exact absurd htv (by simp)
      · obtain ⟨e, h1, t', ht'', h2⟩ := ih ⟨t, ht', htv⟩
        exact ⟨e, by rw [validateAll, hv]; exact h1, t', List.mem_cons_of_mem s ht'', h2⟩

/-- C1: for every supported format, if any cue of the list is invalid
(missing `start`/`end`/`text`, negative `start` or `end`, or `end < start`)
then `generate` raises a `FormatError` that carries the offending field and
value of some invalid cue — the error produced by validating that very cue —
and returns no content at all (`.error`, so nothing is ever written), even
when earlier cues are valid: the whole document is validated before any
wrapping, pagination, serialization or write. -/
theorem c1_invalid_cue_aborts_whole_document (segs : List Segment) (path : List Char)
    (fmt : String) (hfmt : fmt ∈ SUPPORTED_FORMATS)
    (hinv : ∃ s ∈ segs, segInvalidB s = true) :
    ∃ e, generate segs path fmt none = .error e ∧
      ∃ s ∈ segs, validate_segment s = .error e := by
  obtain ⟨e, hva, s, hs, hvs⟩ := validateAll_error_of_invalid segs hinv
  refine ⟨e, ?_, s, hs, hvs⟩
  have hrw : _generate_output_filename path fmt none = .ok path := rfl
  fin_cases hfmt <;>
    simp [generate, SUPPORTED_FORMATS, hrw, generate_srt, generate_vtt, generate_sbv, hva]

/-- Witness for C1 on the specification's own fixture
`[{0, 2, "ok"}, {-1, 2, "bad"}]` with format `"srt"`: the raised error names
the negative `start` value `-1`, although the first cue was valid. -/
theorem c1_invalid_cue_aborts_whole_document_witness :
    (∃ e, generate [⟨some 0, some 2, some ['o', 'k']⟩, ⟨some (-1), some 2, some ['b', 'a', 'd']⟩]
        ['o', 'u', 't'] "srt" none = .error e ∧
      ∃ s ∈ [⟨some 0, some 2, some ['o', 'k']⟩, ⟨some (-1), some 2, some ['b', 'a', 'd']⟩],
        validate_segment s = .error e) ∧
    generate [⟨some 0, some 2, some ['o', 'k']⟩, ⟨some (-1), some 2, some ['b', 'a', 'd']⟩]
        ['o', 'u', 't'] "srt" none = .error (.invalidTimecode "start" (-1)) :=
  ⟨c1_invalid_cue_aborts_whole_document _ _ "srt" (by decide)
      ⟨⟨some (-1), some 2, some ['b', 'a', 'd']⟩, by decide, by decide⟩,
    by decide⟩

/-! ## C10 — optional language code and filename renaming -/

/-- A list containing a separator decomposes as
`takeWhile ++ sep :: (dropWhile).tail`. -/
theorem takeWhile_sep_decomp (sep : Char) :
    ∀ l : List Char, sep ∈ l →
      l = l.takeWhile (· ≠ sep) ++ sep :: (l.dropWhile (· ≠ sep)).tail := by
  intro l
  induction l with
  | nil => intro h; simp at h
  | cons c cs ih =>
    intro h
    by_cases hc : c = sep
    · subst hc
      simp [List.takeWhile, List.dropWhile]
    · have hmem : sep ∈ cs := by
        rcases List.mem_cons.mp h with h1 | h1
        · exact absurd h1.symm hc
        · exact h1
      have hpc : (fun x => decide (x ≠ sep)) c = true := by simp [hc]
      rw [List.takeWhile_cons, List.dropWhile_cons]
      simp only [hpc, if_true]
      rw [List.cons_append]
      exact congrArg (c :: ·) (ih hmem)

/-- The value of `pathName` never contains a slash. -/
theorem pathName_no_slash (p : List Char) : '/' ∉ pathName p := by
  intro h
  rw [pathName, List.mem_reverse] at h
  have := List.mem_takeWhile_imp h
  simp at this

/-- Without a slash, `pathName` is the whole path. -/
theorem pathName_of_no_slash {p : List Char} (h : '/' ∉ p) : pathName p = p := by
  rw [pathName, List.takeWhile_eq_self_iff.mpr, List.reverse_reverse]
  intro x hx
  simp only [ne_eq, decide_eq_true_eq]
  intro hxe
  exact h (hxe ▸ (List.mem_reverse.mp hx))

/-- With a slash, the path is `parent ++ '/' :: name`. -/
theorem path_reconstruct {p : List Char} (h : '/' ∈ p) :
    p = pathParent p ++ '/' :: pathName p := by
  rw [pathParent, if_pos h, pathName]
  have hrev : '/' ∈ p.reverse := List.mem_reverse.mpr h
  conv_lhs => rw [← List.reverse_reverse p, takeWhile_sep_decomp '/' p.reverse hrev]
  rw [List.reverse_append, List.reverse_cons, List.append_assoc]
  rfl

/-- The function `stripFirstMatchingExt` either leaves the name unchanged or removes a
matched extension suffix. -/
theorem stripFirstMatchingExt_cases :
    ∀ (exts : List (List Char)) (name : List Char),
      stripFirstMatchingExt exts name = name ∨
        ∃ ext ∈ exts, ∃ stem, name = stem ++ ext ∧
          stripFirstMatchingExt exts name = stem := by
  intro exts
  induction exts with
  | nil => intro name; exact Or.inl rfl
  | cons ext rest ih =>
    intro name
    rw [stripFirstMatchingExt]
    by_cases hsuf : ext.isSuffixOf name
    · rw [if_pos hsuf]
      obtain ⟨stem, hstem⟩ := List.isSuffixOf_iff_suffix.mp hsuf
      refine Or.inr ⟨ext, List.mem_cons_self ext rest, stem, hstem.symm, ?_⟩
      rw [← hstem, List.length_append, Nat.add_sub_cancel, List.take_left]
    · rw [if_neg hsuf]
      rcases ih name with h | ⟨e, he, stem, h1, h2⟩
      · exact Or.inl h
      · exact Or.inr ⟨e, List.mem_cons_of_mem ext he, stem, h1, h2⟩

/-- The dot count of every subtitle extension is `1`, and none contains a
slash. -/
theorem subtitleExts_facts :
    ∀ ext ∈ subtitleExts, List.count '.' ext = 1 ∧ '/' ∉ ext := by decide

/-- The rebuilt filename `<stem>.<code>.<format>` differs from the original
filename whenever the code and format contain no dots. -/
theorem stripExt_append_code_ne (name code fl : List Char)
    (hc : List.count '.' code = 0) (hf : List.count '.' fl = 0) :
    stripFirstMatchingExt subtitleExts name ++ '.' :: (code ++ '.' :: fl) ≠ name := by
  have hcount : List.count '.' ('.' :: (code ++ '.' :: fl)) = 2 := by
    simp [List.count_cons, List.count_append, hc, hf]
  rcases stripFirstMatchingExt_cases subtitleExts name with h | ⟨ext, hext, stem, h1, h2⟩
  · rw [h]
    intro heq
    have := congrArg List.length heq
    simp at this
  · rw [h2, h1]
    intro heq
    have hse : '.' :: (code ++ '.' :: fl) = ext := List.append_cancel_left heq
    have h1c := (subtitleExts_facts ext hext).1
    rw [← hse, hcount] at h1c
    exact absurd h1c (by norm_num)

/-- The rebuilt filename contains no slash when the original filename, code
and format contain none. -/
theorem stripExt_append_code_no_slash (name code fl : List Char)
    (hn : '/' ∉ name) (hc : '/' ∉ code) (hf : '/' ∉ fl) :
    '/' ∉ stripFirstMatchingExt subtitleExts name ++ '.' :: (code ++ '.' :: fl) := by
  intro h
  rcases List.mem_append.mp h with h1 | h1
  · rcases stripFirstMatchingExt_cases subtitleExts name with he | ⟨ext, _, stem, hname, hres⟩
    · rw [he] at h1
      exact hn h1
    · rw [hres] at h1
      exact hn (hname ▸ List.mem_append.mpr (Or.inl h1))
  · rcases List.mem_cons.mp h1 with h2 | h2
    · exact absurd h2 (by decide)
    · rcases List.mem_append.mp h2 with h3 | h3
      · exact hc h3
      · rcases List.mem_cons.mp h3 with h4 | h4
        · exact absurd h4 (by decide)
        · exact hf h4

/-- A valid language code is all-alphabetic, hence contains neither a dot
nor a slash. -/
theorem valid_code_no_dot_no_slash {code : List Char}
    (h : _is_valid_language_code code = true) :
    List.count '.' code = 0 ∧ '/' ∉ code := by
  rw [_is_valid_language_code] at h
  split_ifs at h
  have hall := List.all_eq_true.mp h
  constructor
  · refine List.count_eq_zero.mpr fun hmem => ?_
    have := hall '.' hmem
    simp at this
  · intro hmem
    have := hall '/' hmem
    simp at this

/-- The renamed path returned by `_generate_output_filename` for a valid
non-empty code ends in `.<code>.<format>` and differs from the input path. -/
theorem genFilename_renames (p : List Char) (fmt : String) (raw : List Char)
    (hfl : List.count '.' fmt.toList = 0 ∧ '/' ∉ fmt.toList) (hraw : raw ≠ [])
    (hvalid : _is_valid_language_code (trimWS (pyLower raw)) = true)
    (ret : List Char) (h : _generate_output_filename p fmt (some raw) = .ok ret) :
    ('.' :: (trimWS (pyLower raw) ++ '.' :: fmt.toList)).isSuffixOf ret = true ∧ ret ≠ p := by
  have hcode := valid_code_no_dot_no_slash hvalid
  rw [_generate_output_filename] at h
  rw [if_neg hraw, if_pos hvalid] at h
  by_cases hpar : pathParent p = ['.']
  · rw [if_pos hpar] at h
    have hret : ret = stripFirstMatchingExt subtitleExts (pathName p) ++
        '.' :: (trimWS (pyLower raw) ++ '.' :: fmt.toList) := by
      cases h; rfl
    constructor
    · rw [hret]
      exact List.isSuffixOf_iff_suffix.mpr ⟨_, rfl⟩
    · rw [hret]
      by_cases hsl : '/' ∈ p
      · intro heq
        rw [← heq] at hsl
        exact stripExt_append_code_no_slash (pathName p) _ _
          (pathName_no_slash p) hcode.2 hfl.2 hsl
      · rw [pathName_of_no_slash hsl]
        exact stripExt_append_code_ne p _ _ hcode.1 hfl.1
  · rw [if_neg hpar] at h
    have hsl : '/' ∈ p := by
      by_contra hns
      exact hpar (by rw [pathParent, if_neg hns])
    have hret : ret = pathParent p ++ '/' ::
        (stripFirstMatchingExt subtitleExts (pathName p) ++
          '.' :: (trimWS (pyLower raw) ++ '.' :: fmt.toList)) := by
      cases h; rfl
    constructor
    · rw [hret]
      refine List.isSuffixOf_iff_suffix.mpr
        ⟨pathParent p ++ '/' :: stripFirstMatchingExt subtitleExts (pathName p), ?_⟩
      simp
    · rw [hret]
      intro heq
      have hcomb := heq.trans (path_reconstruct hsl)
      have := List.append_cancel_left hcomb
      have hname := (List.cons_eq_cons.mp this).2
      exact stripExt_append_code_ne (pathName p) _ _ hcode.1 hfl.1 hname

/-- A generator built from the shared validate-then-render shape returns the
path it was given. -/
theorem validated_ok_path {segs : List Segment} {fp ret : List Char}
    {content f : List String}
    (h : (match validateAll segs with
          | .error e => Except.error e
          | .ok _ => Except.ok (f, fp)) = Except.ok (content, ret)) : fp = ret := by
  cases hv : validateAll segs with
  | error e => rw [hv] at h; exact absurd h (by simp)
  | ok u => rw [hv] at h; cases u; simp at h; exact h.2

/-- C10 counterexample: `language_code = ""` is provided and — after
lowercasing and stripping — is certainly not a 2–3 letter alphabetic code,
yet `generate` raises nothing: the Python truthiness guard
`if not language_code` treats the empty code like an absent one, the
original path is used unchanged and the file is written. -/
theorem c10_counterexample_empty_code_not_rejected :
    generate [] ['o', 'u', 't', '.', 's', 'r', 't'] "srt" (some []) =
      .ok ([], ['o', 'u', 't', '.', 's', 'r', 't']) := by decide

/-- C10 amended: `generate` accepts an optional `language_code` absent from
the spec's contract.  When a **non-empty** code is provided whose
lowercased/stripped form is not 2–3 alphabetic characters, `generate` raises
`SubtitleFormatError` naming the (normalised) code before any cue is
processed and nothing is written; when the normalised code is valid, the
file is written to and the returned path is the renamed path, which ends in
`.<code>.<format>` and differs from the caller's `outputPath`.  An empty
code (before normalisation) is instead treated like an absent one. -/
theorem c10_amended_language_code_handling :
    (∀ (segs : List Segment) (p : List Char) (fmt : String) (raw : List Char),
        fmt ∈ SUPPORTED_FORMATS → raw ≠ [] →
        _is_valid_language_code (trimWS (pyLower raw)) = false →
        generate segs p fmt (some raw) =
          .error (.invalidLanguageCode (trimWS (pyLower raw)))) ∧
    (∀ (segs : List Segment) (p : List Char) (fmt : String) (raw : List Char)
        (content : List String) (ret : List Char),
        fmt ∈ SUPPORTED_FORMATS → raw ≠ [] →
        _is_valid_language_code (trimWS (pyLower raw)) = true →
        generate segs p fmt (some raw) = .ok (content, ret) →
        ('.' :: (trimWS (pyLower raw) ++ '.' :: fmt.toList)).isSuffixOf ret = true ∧
          ret ≠ p) := by
  constructor
  · intro segs p fmt raw hfmt hraw hinv
    rw [generate, if_pos hfmt]
    simp only [_generate_output_filename]
    rw [if_neg hraw, if_neg (by rw [hinv]; exact Bool.false_ne_true)]
  · intro segs p fmt raw content ret hfmt hraw hvalid hok
    have hfl : List.count '.' fmt.toList = 0 ∧ '/' ∉ fmt.toList := by
      fin_cases hfmt <;> exact ⟨by decide, by decide⟩
    rw [generate, if_pos hfmt] at hok
    cases hgf : _generate_output_filename p fmt (some raw) with
    | error e => rw [hgf] at hok; exact absurd hok (by simp)
    | ok fp =>
      rw [hgf] at hok
      have hok2 : (if fmt = "srt" then generate_srt segs fp
          else if fmt = "vtt" || fmt = "webvtt" then generate_vtt segs fp
          else generate_sbv segs fp) = Except.ok (content, ret) := hok
      have hfp : fp = ret := by
        by_cases h1 : fmt = "srt"
        · rw [if_pos h1, generate_srt] at hok2
          exact validated_ok_path hok2
        · rw [if_neg h1] at hok2
          by_cases h2 : (fmt = "vtt" || fmt = "webvtt" : Bool)
          · rw [if_pos h2, generate_vtt] at hok2
            exact validated_ok_path hok2
          · rw [if_neg h2, generate_sbv] at hok2
            exact validated_ok_path hok2
      rw [← hfp]
      exact genFilename_renames p fmt raw hfl hraw hvalid fp hgf

/-- Witness for the amended C10 theorem: an invalid non-empty code
(`"english"`, 7 letters) is rejected naming the code, and a valid code
(`"EN"`, normalised `"en"`) renames `out.srt` to a path ending in
`.en.srt` that differs from the caller's path. -/
theorem c10_amended_language_code_handling_witness :
    generate [] ['o', 'u', 't', '.', 's', 'r', 't'] "srt"
        (some ['e', 'n', 'g', 'l', 'i', 's', 'h']) =
      .error (.invalidLanguageCode (trimWS (pyLower ['e', 'n', 'g', 'l', 'i', 's', 'h']))) ∧
    (('.' :: (trimWS (pyLower ['E', 'N']) ++ '.' :: "srt".toList)).isSuffixOf
        ['o', 'u', 't', '.', 'e', 'n', '.', 's', 'r', 't'] = true ∧
      ['o', 'u', 't', '.', 'e', 'n', '.', 's', 'r', 't'] ≠
        ['o', 'u', 't', '.', 's', 'r', 't']) :=
  ⟨c10_amended_language_code_handling.1 [] _ "srt" _ (by decide) (by decide) (by decide),
    c10_amended_language_code_handling.2 [] ['o', 'u', 't', '.', 's', 'r', 't'] "srt"
      ['E', 'N'] [] ['o', 'u', 't', '.', 'e', 'n', '.', 's', 'r', 't']
      (by decide) (by decide) (by decide) (by decide)⟩

/-! ## C4 — wrapped lines respect the width bound except lone long words -/

/-- A word of the pool is itself a good packed line: its only space-split
piece is itself. -/
theorem word_fragOK {allW : List (List Char)} {maxChars : Int} {w : List Char}
    (hsp : ' ' ∉ w) (hmem : maxChars < (w.length : Int) → w ∈ allW) :
    FragOK allW maxChars w ∧ LoneOK allW maxChars w := by
  constructor
  · intro w' hw'
    rw [splitOnChar_of_not_mem hsp] at hw'
    simp only [List.mem_singleton] at hw'
    subst hw'
    exact hmem
  · intro hlen
    exact ⟨hsp, hmem hlen⟩

/-- Invariant of the greedy packing loop: if every incoming word is
space-free and (when overlong) drawn from the pool `allW`, then every
flushed line and the final current line satisfy `FragOK` and `LoneOK`. -/
theorem packWords_inv (allW : List (List Char)) (maxChars : Int) :
    ∀ (ws : List (List Char)) (cur : List Char),
      (∀ w ∈ ws, ' ' ∉ w ∧ (maxChars < (w.length : Int) → w ∈ allW)) →
      (cur = [] ∨ (FragOK allW maxChars cur ∧ LoneOK allW maxChars cur)) →
      (∀ l ∈ (packWords maxChars ws cur).1,
        FragOK allW maxChars l ∧ LoneOK allW maxChars l) ∧
      ((packWords maxChars ws cur).2 = [] ∨
        (FragOK allW maxChars (packWords maxChars ws cur).2 ∧
          LoneOK allW maxChars (packWords maxChars ws cur).2)) := by
  intro ws
  induction ws with
  | nil =>
    intro cur _ hcur
    exact ⟨by simp [packWords], hcur⟩
  | cons w ws ih =>
    intro cur hws hcur
    have hw := hws w (List.mem_cons_self w ws)
    have hws' : ∀ u ∈ ws, ' ' ∉ u ∧ (maxChars < (u.length : Int) → u ∈ allW) :=
      fun u hu => hws u (List.mem_cons_of_mem w hu)
    have hwOK := word_fragOK hw.1 hw.2
    rw [packWords]
    by_cases hfl : cur ≠ [] ∧ ((cur.length + w.length + 1 : Nat) : Int) > maxChars
    · rw [if_pos hfl]
      have hcurP : FragOK allW maxChars cur ∧ LoneOK allW maxChars cur := by
        rcases hcur with h | h
        · exact absurd h hfl.1
        · exact h
      obtain ⟨hlines, hend⟩ := ih w hws' (Or.inr hwOK)
      refine ⟨?_, hend⟩
      intro l hl
      rcases List.mem_cons.mp hl with rfl | hl'
      · exact hcurP
      · exact hlines l hl'
    · rw [if_neg hfl]
      by_cases hc : cur = []
      · rw [if_pos hc]
        exact ih w hws' (Or.inr hwOK)
      · rw [if_neg hc]
        have hle : ((cur.length + w.length + 1 : Nat) : Int) ≤ maxChars := by
          by_contra habs
          exact hfl ⟨hc, lt_of_not_le habs⟩
        have hcurP : FragOK allW maxChars cur ∧ LoneOK allW maxChars cur := by
          rcases hcur with h | h
          · exact absurd h hc
          · exact h
        refine ih (cur ++ ' ' :: w) hws' (Or.inr ⟨?_, ?_⟩)
        · intro u hu
          rw [splitOnChar_append_sep] at hu
          rcases List.mem_append.mp hu with h1 | h1
          · exact hcurP.1 u h1
          · rw [splitOnChar_of_not_mem hw.1] at h1
            simp only [List.mem_singleton] at h1
            subst h1
            exact hw.2
        · intro hlen
          exfalso
          have : ((cur ++ ' ' :: w).length : Int) = ((cur.length + w.length + 1 : Nat) : Int) := by
            simp [List.length_append]
            ring
          rw [this] at hlen
          linarith

/-- Invariant of the paragraph loop: every produced first-pass line
satisfies `FragOK` and `LoneOK`. -/
theorem processParas_inv (allW : List (List Char)) (maxChars : Int) (lastP : List Char) :
    ∀ (ps : List (List Char)) (cur : List Char),
      (∀ p ∈ ps, ∀ w ∈ splitOnChar ' ' p, maxChars < (w.length : Int) → w ∈ allW) →
      (cur = [] ∨ (FragOK allW maxChars cur ∧ LoneOK allW maxChars cur)) →
      ∀ l ∈ processParas maxChars lastP ps cur,
        FragOK allW maxChars l ∧ LoneOK allW maxChars l := by
  intro ps
  induction ps with
  | nil =>
    intro cur _ hcur l hl
    rw [processParas] at hl
    split at hl
    · simp only [List.mem_singleton] at hl
      subst hl
      rcases hcur with h | h
      · simp_all
      · exact h
    · simp at hl
  | cons p ps ih =>
    intro cur hps hcur l hl
    have hps' : ∀ q ∈ ps, ∀ w ∈ splitOnChar ' ' q, maxChars < (w.length : Int) → w ∈ allW :=
      fun q hq => hps q (List.mem_cons_of_mem p hq)
    have hwords : ∀ w ∈ splitOnChar ' ' p,
        ' ' ∉ w ∧ (maxChars < (w.length : Int) → w ∈ allW) :=
      fun w hw => ⟨not_mem_of_mem_splitOnChar hw, hps p (List.mem_cons_self p ps) w hw⟩
    rw [processParas] at hl
    by_cases hb : isBlank p
    · rw [if_pos hb] at hl
      rcases List.mem_append.mp hl with h1 | h1
      · split at h1
        · simp only [List.mem_singleton] at h1
          subst h1
          rcases hcur with h | h
          · simp_all
          · exact h
        · simp at h1
      · exact ih [] hps' (Or.inl rfl) l h1
    · rw [if_neg hb] at hl
      obtain ⟨hlines, hend⟩ := packWords_inv allW maxChars (splitOnChar ' ' p) cur hwords hcur
      by_cases hflush : (packWords maxChars (splitOnChar ' ' p) cur).2 ≠ [] ∧ p ≠ lastP
      · rw [if_pos hflush] at hl
        rcases List.mem_append.mp hl with h1 | h1
        · rcases List.mem_append.mp h1 with h2 | h2
          · exact hlines l h2
          · simp only [List.mem_singleton] at h2
            subst h2
            rcases hend with h | h
            · exact absurd h hflush.1
            · exact h
        · exact ih [] hps' (Or.inl rfl) l h1
      · rw [if_neg hflush] at hl
        rcases List.mem_append.mp hl with h1 | h1
        · exact hlines l h1
        · exact ih _ hps' hend l h1

/-- The defensive second pass keeps the invariant and yields the claimed
disjunction for every final line. -/
theorem resegmentLine_good (allW : List (List Char)) (maxChars : Int) (line : List Char)
    (hline : FragOK allW maxChars line ∧ LoneOK allW maxChars line) :
    ∀ l ∈ resegmentLine maxChars line,
      (l.length : Int) ≤ maxChars ∨ (' ' ∉ l ∧ l ∈ allW) := by
  intro l hl
  have final : FragOK allW maxChars l ∧ LoneOK allW maxChars l →
      (l.length : Int) ≤ maxChars ∨ (' ' ∉ l ∧ l ∈ allW) := by
    intro hOK
    rcases le_or_lt ((l.length : Nat) : Int) maxChars with h | h
    · exact Or.inl h
    · exact Or.inr (hOK.2 h)
  rw [resegmentLine] at hl
  split at hl
  · simp only [List.mem_singleton] at hl
    subst hl
    exact final hline
  · have hwords : ∀ w ∈ splitOnChar ' ' line,
        ' ' ∉ w ∧ (maxChars < (w.length : Int) → w ∈ allW) :=
      fun w hw => ⟨not_mem_of_mem_splitOnChar hw, hline.1 w hw⟩
    obtain ⟨hlines, hend⟩ :=
      packWords_inv allW maxChars (splitOnChar ' ' line) [] hwords (Or.inl rfl)
    rcases List.mem_append.mp hl with h1 | h1
    · exact final (hlines l h1)
    · split at h1
      · simp only [List.mem_singleton] at h1
        subst h1
        rcases hend with h | h
        · simp_all
        · exact final h
      · simp at h1

/-- C4: every line produced by `segment_text` has length at most `maxChars`,
except lines that consist of a single word — a space-free, unsplit,
untruncated word of the input (a member of `allWords`) occupying a line of
its own — whose own length exceeds `maxChars`. -/
theorem c4_wrap_width_bound_except_long_words (text : List Char) (maxChars : Int)
    (line : List Char) (hline : line ∈ segment_text text maxChars) :
    (line.length : Int) ≤ maxChars ∨
      (maxChars < (line.length : Int) ∧ ' ' ∉ line ∧ line ∈ allWords text) := by
  by_cases htext : text = []
  · subst htext
    rw [segment_text, if_pos rfl] at hline
    simp only [List.mem_singleton] at hline
    subst hline
    rcases le_or_lt ((0 : Nat) : Int) maxChars with h | h
    · exact Or.inl (by simpa using h)
    · refine Or.inr ⟨by simpa using h, by simp, by decide⟩
  · rw [segment_text, if_neg htext] at hline
    obtain ⟨l0, hl0, hmem⟩ := List.mem_flatMap.mp hline
    have hwordpool : ∀ p ∈ splitOnChar '\n' text, ∀ w ∈ splitOnChar ' ' p,
        maxChars < (w.length : Int) → w ∈ allWords text := by
      intro p hp w hw _
      exact List.mem_flatMap.mpr ⟨p, hp, hw⟩
    have hl0OK := processParas_inv (allWords text) maxChars
      ((splitOnChar '\n' text).getLastD []) (splitOnChar '\n' text) []
      hwordpool (Or.inl rfl) l0 hl0
    rcases resegmentLine_good (allWords text) maxChars l0 hl0OK line hmem with h | h
    · exact Or.inl h
    · rcases le_or_lt ((line.length : Nat) : Int) maxChars with hle | hgt
      · exact Or.inl hle
      · exact Or.inr ⟨hgt, h⟩

/-- Witness for C4 on the spec's wrapping fixture
`wrap("aaaa bbbb cccc", 9) = ["aaaa bbbb", "cccc"]`, at the first line. -/
theorem c4_wrap_width_bound_witness :
    ((['a', 'a', 'a', 'a', ' ', 'b', 'b', 'b', 'b'].length : Int) ≤ 9 ∨
      ((9 : Int) < (['a', 'a', 'a', 'a', ' ', 'b', 'b', 'b', 'b'].length : Int) ∧
        ' ' ∉ ['a', 'a', 'a', 'a', ' ', 'b', 'b', 'b', 'b'] ∧
        ['a', 'a', 'a', 'a', ' ', 'b', 'b', 'b', 'b'] ∈
          allWords ['a', 'a', 'a', 'a', ' ', 'b', 'b', 'b', 'b', ' ', 'c', 'c', 'c', 'c'])) :=
  c4_wrap_width_bound_except_long_words
    ['a', 'a', 'a', 'a', ' ', 'b', 'b', 'b', 'b', ' ', 'c', 'c', 'c', 'c'] 9
    ['a', 'a', 'a', 'a', ' ', 'b', 'b', 'b', 'b'] (by decide)

end AudioToSubs
